import Mathlib

/-!
Verification of the `PersonTracker` centroid tracker of `src/app.py`.

Shallow embedding of the class `PersonTracker` from `src/app.py` of the
`person-counter-api` repository, together with theorems settling the
specification claims about it.

Modelling decisions, faithful to the source:

* A Python `dict` preserves insertion order; `self.tracks` is embedded as an
  association list `List (Nat × Track)` in insertion order.  Updating a value
  keeps the entry's position, deletion removes the entry, new keys are
  appended at the end — exactly the Python `dict` behaviour used by the code.
* Rectangle coordinates are integers (`Int`).  The code computes each
  centroid as `int((x1 + x2) / 2)`, float true division truncated toward
  zero, which on integer inputs is `Int.tdiv _ 2`.
* The code compares `np.sqrt((dx)**2 + (dy)**2)` against `100` and against
  the running minimum.  Under exact real arithmetic `Real.sqrt` is strictly
  monotone on nonnegatives, so both comparisons are equivalent to comparing
  the *squared* distances against `10000` and the squared running minimum;
  the embedding works with squared distances throughout.
* The inner loop of the greedy pass skips column indices `j ∈ used_cols`;
  since `track_ids = list(self.tracks.keys())` has pairwise-distinct entries
  (dict keys), skipping claimed *ids* is the same thing, and the embedding
  records claimed track ids.
-/

/-- A tracked person: last known centroid and the count of consecutive
frames since it was last matched (`self.tracks[tid]['centroid']`,
`self.tracks[tid]['disappeared']` in `src/app.py`). -/
structure Track where
  centroid : Int × Int
  disappeared : Nat
  deriving Repr, DecidableEq

/-- The tracker state: the insertion-ordered map `self.tracks` and the
counter `self.next_id` (`PersonTracker.__init__`, lines 27–30). -/
structure PersonTracker where
  tracks : List (Nat × Track)
  next_id : Nat
  deriving Repr, DecidableEq

namespace PersonTracker

/-- The constant `self.max_disappeared = 10` (line 30 of `src/app.py`). -/
def max_disappeared : Nat := 10

/-- A fresh tracker: `PersonTracker()` — empty map, next id 1. -/
def init : PersonTracker := ⟨[], 1⟩

/-- A detection rectangle `(x1, y1, x2, y2)` in pixel coordinates. -/
structure Rect where
  x1 : Int
  y1 : Int
  x2 : Int
  y2 : Int
  deriving Repr, DecidableEq

/-- Centroid extraction `cx = int((x1 + x2) / 2); cy = int((y1 + y2) / 2)`
(lines 44–45):
float true division truncated toward zero = `Int.tdiv` for integer input. -/
def rectCentroid (r : Rect) : Int × Int :=
  ((r.x1 + r.x2).tdiv 2, (r.y1 + r.y2).tdiv 2)

/-- Squared Euclidean distance between two centroids.  The code compares
`np.sqrt(distSq)` with `100` and with the running minimum (lines 74–77);
by monotonicity of the square root this is compared with `10000` here. -/
def distSq (a b : Int × Int) : Int :=
  (a.1 - b.1) ^ 2 + (a.2 - b.2) ^ 2

/-- The inner loop of the greedy pass (lines 66–80): scan the remaining
track list, skipping claimed ids, keeping the best (strictly closer,
within the gate) candidate seen so far in `acc` as `(best_track, min_dist²)`.
`acc = none` is `min_dist = inf, best_track = None`. -/
def findBest (c : Int × Int) (used : List Nat) :
    List (Nat × Track) → Option (Nat × Int) → Option (Nat × Int)
  | [], acc => acc
  | (tid, tr) :: rest, acc =>
    if tid ∈ used then
      findBest c used rest acc
    else
      match acc with
      | none =>
        if distSq c tr.centroid < 10000 then
          findBest c used rest (some (tid, distSq c tr.centroid))
        else
          findBest c used rest none
      | some (b, bd) =>
        if distSq c tr.centroid < bd ∧ distSq c tr.centroid < 10000 then
          findBest c used rest (some (tid, distSq c tr.centroid))
        else
          findBest c used rest (some (b, bd))

/-- The outer loop of the greedy pass (lines 65–85): for each input centroid
in order, find the best unclaimed track; on success record the assignment
and claim the track.  Result entry `i` is `some tid` iff `assignments[i] =
tid` in the code (so `i ∈ used_rows`), `none` iff detection `i` stays
unassigned. -/
def assignPass (tracks : List (Nat × Track)) :
    List (Int × Int) → List Nat → List (Option Nat)
  | [], _ => []
  | c :: cs, used =>
    match findBest c used tracks none with
    | some (tid, _) => some tid :: assignPass tracks cs (tid :: used)
    | none => none :: assignPass tracks cs used

/-- The track ids claimed by detections `0, …, i-1` of the pass — the
contents of `used_cols` (as ids) when detection `i` is examined. -/
def claimedBefore (assigns : List (Option Nat)) (i : Nat) : List Nat :=
  (assigns.take i).filterMap id

/-- Age one map entry by a frame: `self.tracks[track_id]['disappeared'] += 1`
(lines 36 and 94). -/
def ageTrack (p : Nat × Track) : Nat × Track :=
  (p.1, Track.mk p.2.centroid (p.2.disappeared + 1))

/-- The removal test, negated: an entry survives iff
`disappeared <= max_disappeared` (lines 37–38 and 107–108 delete on `>`). -/
def keepTrack (p : Nat × Track) : Bool :=
  decide (p.2.disappeared ≤ max_disappeared)

/-- Line 90, `[k for k, v in assignments.items() if v == track_id][0]`,
returning the centroid of the first detection assigned to `tid`. -/
def firstMatch (assigns : List (Option Nat)) (cents : List (Int × Int))
    (tid : Nat) : Option (Int × Int) :=
  (assigns.zip cents).findSome? fun p => if p.1 = some tid then some p.2 else none

/-- Lines 88–94 for one entry: refresh a matched track's centroid and reset
its `disappeared` to 0, age an unmatched one. -/
def refreshTrack (assigns : List (Option Nat)) (cents : List (Int × Int))
    (p : Nat × Track) : Nat × Track :=
  match firstMatch assigns cents p.1 with
  | some c => (p.1, Track.mk c 0)
  | none => ageTrack p

/-- Lines 88–94: every pre-existing track either gets the centroid of the
first detection assigned to it and `disappeared = 0`, or ages by one. -/
def updateExisting (assigns : List (Option Nat)) (cents : List (Int × Int))
    (tracks : List (Nat × Track)) : List (Nat × Track) :=
  tracks.map (refreshTrack assigns cents)

/-- The centroids of detections left unassigned by the greedy pass, in
input order (`i not in used_rows`, lines 97–98). -/
def unassignedCents (assigns : List (Option Nat)) (cents : List (Int × Int)) :
    List (Int × Int) :=
  (assigns.zip cents).filterMap fun p =>
    match p.1 with
    | none => some p.2
    | some _ => none

/-- Create one new track per centroid with consecutive ids from `nextId`
and `disappeared = 0` (lines 49–54 and 97–103). -/
def mkNew (nextId : Nat) : List (Int × Int) → List (Nat × Track)
  | [] => []
  | c :: cs => (nextId, ⟨c, 0⟩) :: mkNew (nextId + 1) cs

/-- The method `PersonTracker.update` (lines 32–110 of `src/app.py`), returning the
returned id list together with the mutated state. -/
def update (t : PersonTracker) (detections : List Rect) :
    List Nat × PersonTracker :=
  match detections with
  | [] =>
    -- lines 33–39: age every track, drop the ones past the threshold,
    -- and return the empty list.
    ([], ⟨(t.tracks.map ageTrack).filter keepTrack, t.next_id⟩)
  | _ :: _ =>
    let cents := detections.map rectCentroid
    match t.tracks with
    | [] =>
      -- lines 48–54: register every detection as a new track.
      let tracks' := mkNew t.next_id cents
      (tracks'.map Prod.fst, ⟨tracks', t.next_id + cents.length⟩)
    | _ :: _ =>
      -- lines 56–108: greedy matching, refresh/age, new tracks, removal.
      let assigns := assignPass t.tracks cents []
      let tracks1 := updateExisting assigns cents t.tracks
      let tracks2 := tracks1 ++ mkNew t.next_id (unassignedCents assigns cents)
      let tracks3 := tracks2.filter keepTrack
      (tracks3.map Prod.fst, ⟨tracks3, t.next_id + (unassignedCents assigns cents).length⟩)

/-- The ids of the pre-existing tracks claimed by some detection during
`update t detections` (the values of `assignments`, lines 63–85); empty
when either side of the match is empty. -/
def assignedIds (t : PersonTracker) (detections : List Rect) : List Nat :=
  match detections, t.tracks with
  | [], _ => []
  | _, [] => []
  | _ :: _, _ :: _ =>
    (assignPass t.tracks (detections.map rectCentroid) []).filterMap id

/-- Reachable-state well-formedness: the map keys are pairwise distinct
(dict keys) and below the next-id counter. -/
def WF (t : PersonTracker) : Prop :=
  (t.tracks.map Prod.fst).Nodup ∧ ∀ tid ∈ t.tracks.map Prod.fst, tid < t.next_id

instance (t : PersonTracker) : Decidable (WF t) := by
  unfold WF; infer_instance

end PersonTracker

namespace PersonTracker

/-! ### Basic lemmas about the building blocks -/

/-- In a map with pairwise-distinct keys, a key determines its value. -/
theorem key_unique {l : List (Nat × Track)} (h : (l.map Prod.fst).Nodup)
    {tid : Nat} {a b : Track} (ha : (tid, a) ∈ l) (hb : (tid, b) ∈ l) : a = b := by
  induction l with
  | nil => cases ha
  | cons p rest ih =>
    obtain ⟨k, v⟩ := p
    simp only [List.map_cons, List.nodup_cons] at h
    rcases List.mem_cons.mp ha with ha0 | ha1 <;> rcases List.mem_cons.mp hb with hb0 | hb1
    · exact congrArg Prod.snd (ha0.trans hb0.symm)
    · cases ha0
      exact absurd (List.mem_map.mpr ⟨(tid, b), hb1, rfl⟩) h.1
    · cases hb0
      exact absurd (List.mem_map.mpr ⟨(tid, a), ha1, rfl⟩) h.1
    · exact ih h.2 ha1 hb1

/-- Membership in the key list is existence of an entry. -/
theorem mem_keys {l : List (Nat × Track)} {tid : Nat} :
    tid ∈ l.map Prod.fst ↔ ∃ tr, (tid, tr) ∈ l := by
  constructor
  · intro h
    rcases List.mem_map.mp h with ⟨⟨k, v⟩, hm, hk⟩
    cases hk
    exact ⟨v, hm⟩
  · rintro ⟨tr, htr⟩
    exact List.mem_map.mpr ⟨(tid, tr), htr, rfl⟩

theorem mkNew_length (n : Nat) (cs : List (Int × Int)) :
    (mkNew n cs).length = cs.length := by
  induction cs generalizing n with
  | nil => rfl
  | cons c cs ih => simp [mkNew, ih]

/-- New tracks carry the consecutive ids `n, n+1, …`. -/
theorem mkNew_keys (n : Nat) (cs : List (Int × Int)) :
    (mkNew n cs).map Prod.fst = List.range' n cs.length := by
  induction cs generalizing n with
  | nil => rfl
  | cons c cs ih => simp [mkNew, List.range'_succ, ih]

/-- New tracks are positioned in detection order with consecutive ids. -/
theorem mkNew_getElem (n : Nat) (cs : List (Int × Int)) (i : Nat) :
    (mkNew n cs)[i]? = cs[i]?.map fun c => (n + i, Track.mk c 0) := by
  induction cs generalizing n i with
  | nil => simp [mkNew]
  | cons c cs ih =>
    cases i with
    | zero => simp [mkNew]
    | succ j =>
      simp only [mkNew, List.getElem?_cons_succ, ih]
      rcases cs[j]? with _ | c' <;> simp [Nat.add_assoc, Nat.add_comm 1 j]

/-- Every newly created track starts with `disappeared = 0`. -/
theorem mkNew_disappeared (n : Nat) (cs : List (Int × Int)) :
    ∀ p ∈ mkNew n cs, p.2.disappeared = 0 := by
  induction cs generalizing n with
  | nil => intro p hp; cases hp
  | cons c cs ih =>
    intro p hp
    rcases List.mem_cons.mp hp with h0 | h1
    · rw [h0]
    · exact ih (n + 1) p h1

/-- Refreshing or ageing keeps the key of an entry. -/
theorem refreshTrack_fst (assigns : List (Option Nat)) (cents : List (Int × Int))
    (p : Nat × Track) : (refreshTrack assigns cents p).1 = p.1 := by
  unfold refreshTrack ageTrack
  rcases firstMatch assigns cents p.1 with _ | c <;> rfl

/-- The greedy refresh/age step does not change the key list. -/
theorem updateExisting_keys (assigns : List (Option Nat)) (cents : List (Int × Int))
    (tracks : List (Nat × Track)) :
    (updateExisting assigns cents tracks).map Prod.fst = tracks.map Prod.fst := by
  unfold updateExisting
  rw [List.map_map]
  exact List.map_congr_left fun p _ => refreshTrack_fst assigns cents p

/-- The greedy pass produces one entry per input centroid. -/
theorem assignPass_length (tracks : List (Nat × Track)) (cs : List (Int × Int))
    (used : List Nat) : (assignPass tracks cs used).length = cs.length := by
  induction cs generalizing used with
  | nil => rfl
  | cons c cs ih =>
    unfold assignPass
    rcases findBest c used tracks none with _ | ⟨tid, d⟩ <;> simp [ih]

/-- With at least one detection, the returned list is the key list of the
resulting state (line 110 of `src/app.py`). -/
theorem update_ret_eq_keys (t : PersonTracker) (d : Rect) (ds : List Rect) :
    (update t (d :: ds)).1 = (update t (d :: ds)).2.tracks.map Prod.fst := by
  obtain ⟨tracks, n⟩ := t
  cases tracks <;> rfl

/-! ### Claim theorems -/

/-- C1, counterexample: on the state holding only track 1 with
`disappeared = 0`, `update` with the empty detection list keeps track 1 in
the map but returns the empty list — not the id set remaining after
removal, as the claim states. -/
theorem update_nil_returns_empty_cex :
    ((update ⟨[(1, ⟨(0, 0), 0⟩)], 2⟩ []).2.tracks.map Prod.fst = [1]) ∧
    (update ⟨[(1, ⟨(0, 0), 0⟩)], 2⟩ []).1 ≠
      (update ⟨[(1, ⟨(0, 0), 0⟩)], 2⟩ []).2.tracks.map Prod.fst := by
  decide

/-- C1, amended: with no detections, `update` increments `disappeared` for
every existing track, removes exactly the tracks whose counter now exceeds
10, creates no new track — and returns the empty list (line 39), not the
set of surviving ids. -/
theorem update_nil_spec (t : PersonTracker)
    (hnd : (t.tracks.map Prod.fst).Nodup) :
    (update t []).1 = [] ∧
    (∀ tid tr, (tid, tr) ∈ t.tracks →
      (tr.disappeared + 1 ≤ 10 →
        (tid, Track.mk tr.centroid (tr.disappeared + 1)) ∈ (update t []).2.tracks) ∧
      (10 < tr.disappeared + 1 → tid ∉ (update t []).2.tracks.map Prod.fst)) ∧
    (∀ q ∈ (update t []).2.tracks,
      ∃ tr, (q.1, tr) ∈ t.tracks ∧ q.2 = Track.mk tr.centroid (tr.disappeared + 1)) := by
  have hres : (update t []).2.tracks = (t.tracks.map ageTrack).filter keepTrack := rfl
  refine ⟨rfl, ?_, ?_⟩
  · intro tid tr htr
    constructor
    · intro hle
      rw [hres]
      refine List.mem_filter.mpr ⟨List.mem_map.mpr ⟨(tid, tr), htr, rfl⟩, ?_⟩
      simpa [keepTrack, ageTrack, max_disappeared] using hle
    · intro hgt hmem
      rw [hres] at hmem
      rcases mem_keys.mp hmem with ⟨tr', htr'⟩
      have hf := List.mem_filter.mp htr'
      rcases List.mem_map.mp hf.1 with ⟨⟨k, v⟩, hkv, hage⟩
      have hk : k = tid := congrArg Prod.fst hage
      cases hk
      have hv : v = tr := key_unique hnd hkv htr
      cases hv
      have : tr' = Track.mk tr.centroid (tr.disappeared + 1) :=
        (congrArg Prod.snd hage).symm
      rw [this] at hf
      have := hf.2
      simp only [keepTrack, max_disappeared, decide_eq_true_eq] at this
      omega
  · intro q hq
    rw [hres] at hq
    have hf := List.mem_filter.mp hq
    rcases List.mem_map.mp hf.1 with ⟨⟨k, v⟩, hkv, hage⟩
    refine ⟨v, ?_, ?_⟩
    · have hk : q.1 = k := (congrArg Prod.fst hage).symm
      rw [hk]
      exact hkv
    · exact (congrArg Prod.snd hage).symm

/-- C1, witness: a live track is aged and kept by an empty-detection call. -/
theorem update_nil_spec_app :
    ((1 : Nat), Track.mk (0, 0) 1) ∈
      (update ⟨[(1, ⟨(0, 0), 0⟩)], 2⟩ []).2.tracks := by
  have h := update_nil_spec ⟨[(1, ⟨(0, 0), 0⟩)], 2⟩ (by decide)
  exact (h.2.1 1 ⟨(0, 0), 0⟩ (by decide)).1 (by decide)

/-- C3: on a fresh tracker, `update` with `N ≥ 1` detections creates exactly
`N` tracks with consecutive ids `1..N` in detection order (track `i` holds
the centroid of detection `i`) and returns exactly that id list. -/
theorem update_fresh_consecutive_ids (dets : List Rect) (h : dets ≠ []) :
    (update init dets).1 = List.range' 1 dets.length ∧
    (update init dets).2.tracks.map Prod.fst = List.range' 1 dets.length ∧
    (update init dets).2.tracks.length = dets.length ∧
    ∀ i r, dets[i]? = some r →
      (update init dets).2.tracks[i]? = some (1 + i, Track.mk (rectCentroid r) 0) := by
  match dets, h with
  | d :: ds, _ =>
    have hres : (update init (d :: ds)).2.tracks =
        mkNew 1 ((d :: ds).map rectCentroid) := rfl
    have hret : (update init (d :: ds)).1 =
        (mkNew 1 ((d :: ds).map rectCentroid)).map Prod.fst := rfl
    have hlen : ((d :: ds).map rectCentroid).length = (d :: ds).length :=
      List.length_map _ _
    refine ⟨?_, ?_, ?_, ?_⟩
    · rw [hret, mkNew_keys, hlen]
    · rw [hres, mkNew_keys, hlen]
    · rw [hres, mkNew_length, hlen]
    · intro i r hir
      rw [hres, mkNew_getElem, List.getElem?_map, hir]
      rfl

/-- C3, witness: three detections on a fresh tracker yield ids `[1, 2, 3]`. -/
theorem update_fresh_consecutive_ids_app :
    ([(⟨0, 0, 10, 10⟩ : Rect), ⟨100, 100, 110, 110⟩, ⟨300, 300, 310, 310⟩] ≠ []) ∧
    (update init [⟨0, 0, 10, 10⟩, ⟨100, 100, 110, 110⟩, ⟨300, 300, 310, 310⟩]).1 =
      [1, 2, 3] := by
  refine ⟨by decide, ?_⟩
  have h := update_fresh_consecutive_ids
    [⟨0, 0, 10, 10⟩, ⟨100, 100, 110, 110⟩, ⟨300, 300, 310, 310⟩] (by decide)
  simpa using h.1

/-- C4: starting from a tracker holding only track 1 with `disappeared = 0`,
after 10 consecutive empty-detection frames the track is still held (with
`disappeared = 10`); the 11th empty frame removes it. -/
theorem track_removed_after_eleventh_empty_frame :
    ((fun t => (update t []).2)^[10] ⟨[(1, ⟨(0, 0), 0⟩)], 2⟩ =
      ⟨[(1, ⟨(0, 0), 10⟩)], 2⟩) ∧
    ((fun t => (update t []).2)^[11] ⟨[(1, ⟨(0, 0), 0⟩)], 2⟩ = ⟨[], 2⟩) := by
  decide

/-- C7: every track in the state after `update` has `disappeared ≤ 10`, and
every returned id belongs to such a track — no returned id ever names a
track whose `disappeared` exceeds 10. -/
theorem returned_ids_not_overdue (t : PersonTracker) (dets : List Rect) :
    (∀ p ∈ (update t dets).2.tracks, p.2.disappeared ≤ 10) ∧
    ∀ tid ∈ (update t dets).1,
      ∃ tr, (tid, tr) ∈ (update t dets).2.tracks ∧ tr.disappeared ≤ 10 := by
  obtain ⟨tracks, n⟩ := t
  have main : ∀ p ∈ (update ⟨tracks, n⟩ dets).2.tracks, p.2.disappeared ≤ 10 := by
    cases dets with
    | nil =>
      intro p hp
      have := (List.mem_filter.mp hp).2
      simpa [keepTrack, max_disappeared] using this
    | cons d ds =>
      cases tracks with
      | nil =>
        intro p hp
        have h0 := mkNew_disappeared _ _ p hp
        omega
      | cons q qs =>
        intro p hp
        have := (List.mem_filter.mp hp).2
        simpa [keepTrack, max_disappeared] using this
  refine ⟨main, ?_⟩
  intro tid htid
  cases dets with
  | nil => cases htid
  | cons d ds =>
    rw [update_ret_eq_keys] at htid
    rcases mem_keys.mp htid with ⟨tr, htr⟩
    exact ⟨tr, htr, main _ htr⟩

/-- C7, witness: applied to a fresh tracker and one detection. -/
theorem returned_ids_not_overdue_app :
    ∃ tr, ((1 : Nat), tr) ∈ (update init [⟨0, 0, 10, 10⟩]).2.tracks ∧
      tr.disappeared ≤ 10 := by
  refine (returned_ids_not_overdue init [⟨0, 0, 10, 10⟩]).2 1 ?_
  decide

/-- C8: `update` is total — for every tracker state and every detection
list it returns a result (the embedding is a plain function: no partiality,
no exception, no I/O). -/
theorem update_total (t : PersonTracker) (dets : List Rect) :
    ∃ ret t', update t dets = (ret, t') :=
  ⟨_, _, rfl⟩

/-! ### Unfolding lemmas for the inner scan -/

theorem findBest_nil (c : Int × Int) (used : List Nat) (acc : Option (Nat × Int)) :
    findBest c used [] acc = acc := rfl

theorem findBest_cons_used (c : Int × Int) (used : List Nat) (tid : Nat) (tr : Track)
    (rest : List (Nat × Track)) (acc : Option (Nat × Int)) (h : tid ∈ used) :
    findBest c used ((tid, tr) :: rest) acc = findBest c used rest acc := by
  cases acc with
  | none => simp [findBest, h]
  | some p => obtain ⟨b, bd⟩ := p; simp [findBest, h]

theorem findBest_cons_none_hit (c : Int × Int) (used : List Nat) (tid : Nat) (tr : Track)
    (rest : List (Nat × Track)) (hu : tid ∉ used) (hd : distSq c tr.centroid < 10000) :
    findBest c used ((tid, tr) :: rest) none =
      findBest c used rest (some (tid, distSq c tr.centroid)) := by
  simp [findBest, hu, hd]

theorem findBest_cons_none_miss (c : Int × Int) (used : List Nat) (tid : Nat) (tr : Track)
    (rest : List (Nat × Track)) (hu : tid ∉ used) (hd : ¬distSq c tr.centroid < 10000) :
    findBest c used ((tid, tr) :: rest) none = findBest c used rest none := by
  simp [findBest, hu, hd]

theorem findBest_cons_some_better (c : Int × Int) (used : List Nat) (tid : Nat) (tr : Track)
    (rest : List (Nat × Track)) (b : Nat) (bd : Int) (hu : tid ∉ used)
    (hc : distSq c tr.centroid < bd ∧ distSq c tr.centroid < 10000) :
    findBest c used ((tid, tr) :: rest) (some (b, bd)) =
      findBest c used rest (some (tid, distSq c tr.centroid)) := by
  simp [findBest, hu, hc]

theorem findBest_cons_some_keep (c : Int × Int) (used : List Nat) (tid : Nat) (tr : Track)
    (rest : List (Nat × Track)) (b : Nat) (bd : Int) (hu : tid ∉ used)
    (hc : ¬(distSq c tr.centroid < bd ∧ distSq c tr.centroid < 10000)) :
    findBest c used ((tid, tr) :: rest) (some (b, bd)) =
      findBest c used rest (some (b, bd)) := by
  simp [findBest, hu]
  intro h1 h2
  exact absurd ⟨h1, h2⟩ hc

/-- A candidate at least as close as every remaining track is kept. -/
theorem findBest_keeps_min (c : Int × Int) (used : List Nat) :
    ∀ (ts : List (Nat × Track)) (b : Nat) (bd : Int),
      (∀ p ∈ ts, bd ≤ distSq c p.2.centroid) →
      findBest c used ts (some (b, bd)) = some (b, bd) := by
  intro ts
  induction ts with
  | nil => intro b bd _; rfl
  | cons p rest ih =>
    intro b bd h
    obtain ⟨tid, tr⟩ := p
    by_cases hu : tid ∈ used
    · rw [findBest_cons_used c used tid tr rest _ hu]
      exact ih b bd fun q hq => h q (List.mem_cons_of_mem _ hq)
    · have hc : ¬(distSq c tr.centroid < bd ∧ distSq c tr.centroid < 10000) := by
        intro hcon
        exact absurd hcon.1 (not_lt.mpr (h (tid, tr) (List.mem_cons_self _ _)))
      rw [findBest_cons_some_keep c used tid tr rest b bd hu hc]
      exact ih b bd fun q hq => h q (List.mem_cons_of_mem _ hq)

/-- C9: `update` is deterministic — equal states and equal detection lists
give equal results — and a tie in minimum distance between two unclaimed
tracks is broken in favour of the one encountered first in map iteration
order (the strict `<` on line 77 never replaces an equally good earlier
candidate). -/
theorem update_deterministic (t₁ t₂ : PersonTracker) (d₁ d₂ : List Rect)
    (hts : t₁ = t₂) (hds : d₁ = d₂) :
    update t₁ d₁ = update t₂ d₂ ∧
    ∀ (c : Int × Int) (tid₁ tid₂ : Nat) (tr₁ tr₂ : Track) (rest : List (Nat × Track)),
      distSq c tr₂.centroid = distSq c tr₁.centroid →
      distSq c tr₁.centroid < 10000 →
      (∀ p ∈ rest, distSq c tr₁.centroid ≤ distSq c p.2.centroid) →
      findBest c [] ((tid₁, tr₁) :: (tid₂, tr₂) :: rest) none =
        some (tid₁, distSq c tr₁.centroid) := by
  constructor
  · rw [hts, hds]
  · intro c tid₁ tid₂ tr₁ tr₂ rest heq hlt hall
    rw [findBest_cons_none_hit c [] tid₁ tr₁ _ (List.not_mem_nil _) hlt]
    have hc : ¬(distSq c tr₂.centroid < distSq c tr₁.centroid ∧
        distSq c tr₂.centroid < 10000) := by
      rw [heq]
      exact fun h => lt_irrefl _ h.1
    rw [findBest_cons_some_keep c [] tid₂ tr₂ rest tid₁ _ (List.not_mem_nil _) hc]
    exact findBest_keeps_min c [] rest tid₁ _ hall

/-- Starting from a present candidate, the scan always returns a candidate. -/
theorem findBest_acc_isSome (c : Int × Int) (used : List Nat) :
    ∀ (ts : List (Nat × Track)) (b : Nat) (bd : Int),
      ∃ r rd, findBest c used ts (some (b, bd)) = some (r, rd) := by
  intro ts
  induction ts with
  | nil => exact fun b bd => ⟨b, bd, rfl⟩
  | cons p rest ih =>
    intro b bd
    obtain ⟨tid, tr⟩ := p
    by_cases hu : tid ∈ used
    · rw [findBest_cons_used c used tid tr rest _ hu]
      exact ih b bd
    · by_cases hc : distSq c tr.centroid < bd ∧ distSq c tr.centroid < 10000
      · rw [findBest_cons_some_better c used tid tr rest b bd hu hc]
        exact ih tid _
      · rw [findBest_cons_some_keep c used tid tr rest b bd hu hc]
        exact ih b bd

/-- Invariant of the inner scan from a candidate `(b, bd)` inside the gate:
the result is at most `bd` away, inside the gate, is either the incoming
candidate or an unclaimed scanned track at its own distance, and is at most
as far as every unclaimed scanned track. -/
theorem findBest_acc_spec (c : Int × Int) (used : List Nat) :
    ∀ (ts : List (Nat × Track)) (b : Nat) (bd : Int) (r : Nat) (rd : Int),
      bd < 10000 →
      findBest c used ts (some (b, bd)) = some (r, rd) →
      rd ≤ bd ∧ rd < 10000 ∧
        ((r, rd) = (b, bd) ∨
          ∃ tr, (r, tr) ∈ ts ∧ r ∉ used ∧ rd = distSq c tr.centroid) ∧
        ∀ tid' tr', (tid', tr') ∈ ts → tid' ∉ used →
          rd ≤ distSq c tr'.centroid := by
  intro ts
  induction ts with
  | nil =>
    intro b bd r rd hbd h
    rw [findBest_nil] at h
    injection h with h1
    injection h1 with h2 h3
    subst h2; subst h3
    exact ⟨le_refl _, hbd, Or.inl rfl, fun _ _ hm _ => absurd hm (List.not_mem_nil _)⟩
  | cons p rest ih =>
    intro b bd r rd hbd h
    obtain ⟨tid, tr⟩ := p
    by_cases hu : tid ∈ used
    · rw [findBest_cons_used c used tid tr rest _ hu] at h
      obtain ⟨h1, h2, h3, h4⟩ := ih b bd r rd hbd h
      refine ⟨h1, h2, ?_, ?_⟩
      · rcases h3 with h3 | ⟨tr', hm, hnu, he⟩
        · exact Or.inl h3
        · exact Or.inr ⟨tr', List.mem_cons_of_mem _ hm, hnu, he⟩
      · intro tid' tr' hm hnu
        rcases List.mem_cons.mp hm with he | hm'
        · injection he with he1 he2
          subst he1
          exact absurd hu hnu
        · exact h4 tid' tr' hm' hnu
    · by_cases hc : distSq c tr.centroid < bd ∧ distSq c tr.centroid < 10000
      · rw [findBest_cons_some_better c used tid tr rest b bd hu hc] at h
        obtain ⟨h1, h2, h3, h4⟩ := ih tid _ r rd hc.2 h
        refine ⟨le_trans h1 (le_of_lt hc.1), h2, ?_, ?_⟩
        · rcases h3 with h3 | ⟨tr', hm, hnu, he⟩
          · injection h3 with he1 he2
            subst he1
            exact Or.inr ⟨tr, List.mem_cons_self _ _, hu, he2⟩
          · exact Or.inr ⟨tr', List.mem_cons_of_mem _ hm, hnu, he⟩
        · intro tid' tr' hm hnu
          rcases List.mem_cons.mp hm with he | hm'
          · injection he with he1 he2
            subst he2
            exact h1
          · exact h4 tid' tr' hm' hnu
      · rw [findBest_cons_some_keep c used tid tr rest b bd hu hc] at h
        obtain ⟨h1, h2, h3, h4⟩ := ih b bd r rd hbd h
        refine ⟨h1, h2, ?_, ?_⟩
        · rcases h3 with h3 | ⟨tr', hm, hnu, he⟩
          · exact Or.inl h3
          · exact Or.inr ⟨tr', List.mem_cons_of_mem _ hm, hnu, he⟩
        · intro tid' tr' hm hnu
          rcases List.mem_cons.mp hm with he | hm'
          · injection he with he1 he2
            subst he2
            rcases not_and_or.mp hc with hnb | hng
            · exact le_trans h1 (le_of_not_lt hnb)
            · exact le_trans (le_of_lt h2) (le_of_not_lt hng)
          · exact h4 tid' tr' hm' hnu

/-- When the scan of the whole (remaining) track list succeeds from
`best_track = None`, the winner is an unclaimed listed track, strictly
inside the gate, and no unclaimed listed track is closer. -/
theorem findBest_none_some_spec (c : Int × Int) (used : List Nat) :
    ∀ (ts : List (Nat × Track)) (r : Nat) (rd : Int),
      findBest c used ts none = some (r, rd) →
      ∃ tr, (r, tr) ∈ ts ∧ r ∉ used ∧ rd = distSq c tr.centroid ∧ rd < 10000 ∧
        ∀ tid' tr', (tid', tr') ∈ ts → tid' ∉ used →
          rd ≤ distSq c tr'.centroid := by
  intro ts
  induction ts with
  | nil => intro r rd h; cases h
  | cons p rest ih =>
    intro r rd h
    obtain ⟨tid, tr⟩ := p
    by_cases hu : tid ∈ used
    · rw [findBest_cons_used c used tid tr rest _ hu] at h
      obtain ⟨tr', hm, hnu, he, hg, hall⟩ := ih r rd h
      refine ⟨tr', List.mem_cons_of_mem _ hm, hnu, he, hg, ?_⟩
      intro tid' tr'' hm' hnu'
      rcases List.mem_cons.mp hm' with he' | hm''
      · injection he' with he1 he2
        subst he1
        exact absurd hu hnu'
      · exact hall tid' tr'' hm'' hnu'
    · by_cases hd : distSq c tr.centroid < 10000
      · rw [findBest_cons_none_hit c used tid tr rest hu hd] at h
        obtain ⟨h1, h2, h3, h4⟩ := findBest_acc_spec c used rest tid _ r rd hd h
        rcases h3 with h3 | ⟨tr', hm, hnu, he⟩
        · injection h3 with he1 he2
          subst he1; subst he2
          refine ⟨tr, List.mem_cons_self _ _, hu, rfl, hd, ?_⟩
          intro tid' tr'' hm' hnu'
          rcases List.mem_cons.mp hm' with he' | hm''
          · injection he' with he1 he2
            subst he2
            exact le_refl _
          · exact h4 tid' tr'' hm'' hnu'
        · refine ⟨tr', List.mem_cons_of_mem _ hm, hnu, he, h2, ?_⟩
          intro tid' tr'' hm' hnu'
          rcases List.mem_cons.mp hm' with he' | hm''
          · injection he' with he1 he2
            subst he2
            exact h1
          · exact h4 tid' tr'' hm'' hnu'
      · rw [findBest_cons_none_miss c used tid tr rest hu hd] at h
        obtain ⟨tr', hm, hnu, he, hg, hall⟩ := ih r rd h
        refine ⟨tr', List.mem_cons_of_mem _ hm, hnu, he, hg, ?_⟩
        intro tid' tr'' hm' hnu'
        rcases List.mem_cons.mp hm' with he' | hm''
        · injection he' with he1 he2
          subst he2
          exact le_trans (le_of_lt hg) (le_of_not_lt hd)
        · exact hall tid' tr'' hm'' hnu'

/-- When the scan from `best_track = None` fails, every unclaimed listed
track is at or beyond the gate. -/
theorem findBest_none_none_spec (c : Int × Int) (used : List Nat) :
    ∀ (ts : List (Nat × Track)),
      findBest c used ts none = none →
      ∀ tid tr, (tid, tr) ∈ ts → tid ∉ used →
        10000 ≤ distSq c tr.centroid := by
  intro ts
  induction ts with
  | nil => intro _ tid tr hm; cases hm
  | cons p rest ih =>
    intro h tid tr hm hnu
    obtain ⟨tid₀, tr₀⟩ := p
    by_cases hu : tid₀ ∈ used
    · rw [findBest_cons_used c used tid₀ tr₀ rest _ hu] at h
      rcases List.mem_cons.mp hm with he | hm'
      · injection he with he1 he2
        subst he1
        exact absurd hu hnu
      · exact ih h tid tr hm' hnu
    · by_cases hd : distSq c tr₀.centroid < 10000
      · rw [findBest_cons_none_hit c used tid₀ tr₀ rest hu hd] at h
        obtain ⟨r, rd, he⟩ := findBest_acc_isSome c used rest tid₀ _
        rw [he] at h
        cases h
      · rw [findBest_cons_none_miss c used tid₀ tr₀ rest hu hd] at h
        rcases List.mem_cons.mp hm with he | hm'
        · injection he with he1 he2
          subst he2
          exact le_of_not_lt hd
        · exact ih h tid tr hm' hnu

/-! ### The greedy pass -/

theorem assignPass_cons_hit (tracks : List (Nat × Track)) (c : Int × Int)
    (cs : List (Int × Int)) (used : List Nat) (tid : Nat) (d : Int)
    (h : findBest c used tracks none = some (tid, d)) :
    assignPass tracks (c :: cs) used =
      some tid :: assignPass tracks cs (tid :: used) := by
  simp only [assignPass]
  rw [h]

theorem assignPass_cons_miss (tracks : List (Nat × Track)) (c : Int × Int)
    (cs : List (Int × Int)) (used : List Nat)
    (h : findBest c used tracks none = none) :
    assignPass tracks (c :: cs) used = none :: assignPass tracks cs used := by
  simp only [assignPass]
  rw [h]

theorem mem_filterMap_id {l : List (Option Nat)} {x : Nat} :
    x ∈ l.filterMap id ↔ some x ∈ l := by
  simp [List.mem_filterMap]

theorem claimedBefore_zero (assigns : List (Option Nat)) :
    claimedBefore assigns 0 = [] := rfl

theorem claimedBefore_some_succ (tid : Nat) (assigns : List (Option Nat)) (j : Nat) :
    claimedBefore (some tid :: assigns) (j + 1) = tid :: claimedBefore assigns j := by
  simp [claimedBefore]

theorem claimedBefore_none_succ (assigns : List (Option Nat)) (j : Nat) :
    claimedBefore (none :: assigns) (j + 1) = claimedBefore assigns j := by
  simp [claimedBefore]

/-- Every id the pass assigns belongs to a listed track and was unclaimed
when the pass started. -/
theorem assignPass_mem_spec (tracks : List (Nat × Track)) :
    ∀ (cs : List (Int × Int)) (used : List Nat) (tid : Nat),
      some tid ∈ assignPass tracks cs used →
      (∃ tr, (tid, tr) ∈ tracks) ∧ tid ∉ used := by
  intro cs
  induction cs with
  | nil => intro used tid h; cases h
  | cons c cs ih =>
    intro used tid h
    cases hF : findBest c used tracks none with
    | some p =>
      obtain ⟨tid₀, d⟩ := p
      rw [assignPass_cons_hit tracks c cs used tid₀ d hF] at h
      rcases List.mem_cons.mp h with he | hm
      · have : tid = tid₀ := Option.some.inj he
        subst this
        obtain ⟨tr, hm', hnu, _, _, _⟩ := findBest_none_some_spec c used tracks tid d hF
        exact ⟨⟨tr, hm'⟩, hnu⟩
      · obtain ⟨hex, hnu⟩ := ih (tid₀ :: used) tid hm
        exact ⟨hex, fun hc => hnu (List.mem_cons_of_mem _ hc)⟩
    | none =>
      rw [assignPass_cons_miss tracks c cs used hF] at h
      rcases List.mem_cons.mp h with he | hm
      · cases he
      · exact ih used tid hm

/-- No track is claimed twice during one pass: the assigned ids are
pairwise distinct. -/
theorem assignPass_values_nodup (tracks : List (Nat × Track)) :
    ∀ (cs : List (Int × Int)) (used : List Nat),
      ((assignPass tracks cs used).filterMap id).Nodup := by
  intro cs
  induction cs with
  | nil => intro used; simp [assignPass]
  | cons c cs ih =>
    intro used
    cases hF : findBest c used tracks none with
    | some p =>
      obtain ⟨tid₀, d⟩ := p
      rw [assignPass_cons_hit tracks c cs used tid₀ d hF]
      refine List.nodup_cons.mpr ⟨?_, ih (tid₀ :: used)⟩
      intro hc
      have := (assignPass_mem_spec tracks cs (tid₀ :: used) tid₀
        (mem_filterMap_id.mp hc)).2
      exact this (List.mem_cons_self _ _)
    | none =>
      rw [assignPass_cons_miss tracks c cs used hF]
      simpa using ih used

/-- Full characterisation of the greedy pass, generalised over the ids
already claimed when it starts: an assigned detection got an unclaimed
listed track strictly inside the gate, no unclaimed (at that step) track
closer; an unassigned detection had every still-unclaimed track at or
beyond the gate. -/
theorem assignPass_spec (tracks : List (Nat × Track)) :
    ∀ (cs : List (Int × Int)) (used : List Nat) (i : Nat) (c : Int × Int),
      cs[i]? = some c →
      (∀ tid, (assignPass tracks cs used)[i]? = some (some tid) →
        ∃ tr, (tid, tr) ∈ tracks ∧
          (tid ∉ used ∧ tid ∉ claimedBefore (assignPass tracks cs used) i) ∧
          distSq c tr.centroid < 10000 ∧
          ∀ tid' tr', (tid', tr') ∈ tracks → tid' ∉ used →
            tid' ∉ claimedBefore (assignPass tracks cs used) i →
            distSq c tr.centroid ≤ distSq c tr'.centroid) ∧
      ((assignPass tracks cs used)[i]? = some none →
        ∀ tid' tr', (tid', tr') ∈ tracks → tid' ∉ used →
          tid' ∉ claimedBefore (assignPass tracks cs used) i →
          10000 ≤ distSq c tr'.centroid) := by
  intro cs
  induction cs with
  | nil =>
    intro used i c hc
    rw [List.getElem?_nil] at hc
    cases hc
  | cons c₀ cs ih =>
    intro used i c hc
    cases i with
    | zero =>
      rw [List.getElem?_cons_zero] at hc
      have hc0 : c₀ = c := Option.some.inj hc
      subst hc0
      cases hF : findBest c₀ used tracks none with
      | some p =>
        obtain ⟨tid₀, d⟩ := p
        rw [assignPass_cons_hit tracks c₀ cs used tid₀ d hF]
        constructor
        · intro tid htid
          rw [List.getElem?_cons_zero] at htid
          have : tid₀ = tid := Option.some.inj (Option.some.inj htid)
          subst this
          obtain ⟨tr, hm, hnu, he, hg, hall⟩ :=
            findBest_none_some_spec c₀ used tracks tid₀ d hF
          rw [claimedBefore_zero]
          refine ⟨tr, hm, ⟨hnu, List.not_mem_nil _⟩, ?_, ?_⟩
          · rw [← he]; exact hg
          · intro tid' tr' hm' hnu' _
            rw [← he]
            exact hall tid' tr' hm' hnu'
        · intro htid
          rw [List.getElem?_cons_zero] at htid
          cases Option.some.inj htid
      | none =>
        rw [assignPass_cons_miss tracks c₀ cs used hF]
        constructor
        · intro tid htid
          rw [List.getElem?_cons_zero] at htid
          cases Option.some.inj htid
        · intro _ tid' tr' hm' hnu' _
          exact findBest_none_none_spec c₀ used tracks hF tid' tr' hm' hnu'
    | succ j =>
      rw [List.getElem?_cons_succ] at hc
      cases hF : findBest c₀ used tracks none with
      | some p =>
        obtain ⟨tid₀, d⟩ := p
        rw [assignPass_cons_hit tracks c₀ cs used tid₀ d hF]
        obtain ⟨ih1, ih2⟩ := ih (tid₀ :: used) j c hc
        constructor
        · intro tid htid
          rw [List.getElem?_cons_succ] at htid
          obtain ⟨tr, hm, ⟨hnu, hncb⟩, hg, hall⟩ := ih1 tid htid
          rw [claimedBefore_some_succ]
          refine ⟨tr, hm, ⟨fun hx => hnu (List.mem_cons_of_mem _ hx), ?_⟩, hg, ?_⟩
          · intro hx
            rcases List.mem_cons.mp hx with he | hx'
            · exact hnu (he ▸ List.mem_cons_self _ _)
            · exact hncb hx'
          · intro tid' tr' hm' hnu' hncb'
            refine hall tid' tr' hm' ?_ ?_
            · intro hx
              rcases List.mem_cons.mp hx with he | hx'
              · exact hncb' (he ▸ List.mem_cons_self _ _)
              · exact hnu' hx'
            · exact fun hx => hncb' (List.mem_cons_of_mem _ hx)
        · intro htid
          rw [List.getElem?_cons_succ] at htid
          intro tid' tr' hm' hnu' hncb'
          rw [claimedBefore_some_succ] at hncb'
          refine ih2 htid tid' tr' hm' ?_ ?_
          · intro hx
            rcases List.mem_cons.mp hx with he | hx'
            · exact hncb' (he ▸ List.mem_cons_self _ _)
            · exact hnu' hx'
          · exact fun hx => hncb' (List.mem_cons_of_mem _ hx)
      | none =>
        rw [assignPass_cons_miss tracks c₀ cs used hF]
        obtain ⟨ih1, ih2⟩ := ih used j c hc
        constructor
        · intro tid htid
          rw [List.getElem?_cons_succ] at htid
          obtain ⟨tr, hm, ⟨hnu, hncb⟩, hg, hall⟩ := ih1 tid htid
          rw [claimedBefore_none_succ]
          exact ⟨tr, hm, ⟨hnu, hncb⟩, hg, fun tid' tr' hm' hnu' hncb' =>
            hall tid' tr' hm' hnu' hncb'⟩
        · intro htid
          rw [List.getElem?_cons_succ] at htid
          intro tid' tr' hm' hnu' hncb'
          rw [claimedBefore_none_succ] at hncb'
          exact ih2 htid tid' tr' hm' hnu' hncb'

/-- C2: with existing tracks and detections both present, the matching is
greedy and single-pass: detection `i`, in input order, is assigned a track
iff the minimum squared centroid distance over the tracks not claimed by
detections `0..i-1` is strictly inside the gate (squared distance
`< 10000`, i.e. distance `< 100` px); the assigned track realises that
minimum, each track is claimed by at most one detection (assigned ids are
pairwise distinct), and each detection claims at most one track (one
optional id per detection). -/
theorem greedy_matching (t : PersonTracker) (dets : List Rect)
    (htr : t.tracks ≠ []) (hd : dets ≠ []) :
    assignedIds t dets =
      (assignPass t.tracks (dets.map rectCentroid) []).filterMap id ∧
    (assignPass t.tracks (dets.map rectCentroid) []).length = dets.length ∧
    ((assignPass t.tracks (dets.map rectCentroid) []).filterMap id).Nodup ∧
    ∀ i c, (dets.map rectCentroid)[i]? = some c →
      (∀ tid,
        (assignPass t.tracks (dets.map rectCentroid) [])[i]? = some (some tid) →
        ∃ tr, (tid, tr) ∈ t.tracks ∧
          tid ∉ claimedBefore (assignPass t.tracks (dets.map rectCentroid) []) i ∧
          distSq c tr.centroid < 10000 ∧
          ∀ tid' tr', (tid', tr') ∈ t.tracks →
            tid' ∉ claimedBefore (assignPass t.tracks (dets.map rectCentroid) []) i →
            distSq c tr.centroid ≤ distSq c tr'.centroid) ∧
      ((assignPass t.tracks (dets.map rectCentroid) [])[i]? = some none →
        ∀ tid' tr', (tid', tr') ∈ t.tracks →
          tid' ∉ claimedBefore (assignPass t.tracks (dets.map rectCentroid) []) i →
          10000 ≤ distSq c tr'.centroid) := by
  refine ⟨?_, ?_, assignPass_values_nodup t.tracks _ _, ?_⟩
  · obtain ⟨tracks, n⟩ := t
    match dets, hd, tracks, htr with
    | d :: ds, _, p :: ps, _ => rfl
  · rw [assignPass_length, List.length_map]
  · intro i c hc
    obtain ⟨h1, h2⟩ := assignPass_spec t.tracks (dets.map rectCentroid) [] i c hc
    constructor
    · intro tid htid
      obtain ⟨tr, hm, ⟨_, hncb⟩, hg, hall⟩ := h1 tid htid
      exact ⟨tr, hm, hncb, hg, fun tid' tr' hm' hncb' =>
        hall tid' tr' hm' (List.not_mem_nil _) hncb'⟩
    · intro htid tid' tr' hm' hncb'
      exact h2 htid tid' tr' hm' (List.not_mem_nil _) hncb'

/-- C2, witness: one track, one detection, both hypotheses discharged at a
concrete input. -/
theorem greedy_matching_app :
    (assignPass [((1 : Nat), Track.mk (0, 0) 0)]
      ([(⟨0, 0, 6, 8⟩ : Rect)].map rectCentroid) []).length = 1 ∧
    ∃ tr, ((1 : Nat), tr) ∈ [((1 : Nat), Track.mk (0, 0) 0)] ∧
      (1 : Nat) ∉ claimedBefore
        (assignPass [((1 : Nat), Track.mk (0, 0) 0)]
          ([(⟨0, 0, 6, 8⟩ : Rect)].map rectCentroid) []) 0 ∧
      distSq (3, 4) tr.centroid < 10000 ∧
      ∀ tid' tr', (tid', tr') ∈ [((1 : Nat), Track.mk (0, 0) 0)] →
        tid' ∉ claimedBefore
          (assignPass [((1 : Nat), Track.mk (0, 0) 0)]
            ([(⟨0, 0, 6, 8⟩ : Rect)].map rectCentroid) []) 0 →
        distSq (3, 4) tr.centroid ≤ distSq (3, 4) tr'.centroid := by
  have h := greedy_matching ⟨[((1 : Nat), Track.mk (0, 0) 0)], 2⟩
    [(⟨0, 0, 6, 8⟩ : Rect)] (by decide) (by decide)
  exact ⟨h.2.1, (h.2.2.2 0 (3, 4) rfl).1 1 rfl⟩

/-! ### The refresh/age step -/

theorem findSome?_none_iff {α β : Type} (f : α → Option β) :
    ∀ l : List α, l.findSome? f = none ↔ ∀ x ∈ l, f x = none := by
  intro l
  induction l with
  | nil => simp
  | cons a l ih =>
    rw [List.findSome?_cons]
    cases hfa : f a with
    | some b => simp [hfa]
    | none => simp [hfa, ih]

theorem findSome?_eq_some_mem {α β : Type} (f : α → Option β) :
    ∀ (l : List α) (b : β), l.findSome? f = some b → ∃ a ∈ l, f a = some b := by
  intro l
  induction l with
  | nil => intro b h; cases h
  | cons a l ih =>
    intro b h
    rw [List.findSome?_cons] at h
    cases hfa : f a with
    | some b' =>
      rw [hfa] at h
      exact ⟨a, List.mem_cons_self _ _, hfa.trans h⟩
    | none =>
      rw [hfa] at h
      obtain ⟨x, hx, hfx⟩ := ih b h
      exact ⟨x, List.mem_cons_of_mem _ hx, hfx⟩

theorem exists_zip_pair {α β : Type} :
    ∀ {l₁ : List α} {l₂ : List β} {a : α}, a ∈ l₁ → l₁.length ≤ l₂.length →
      ∃ b, (a, b) ∈ l₁.zip l₂ := by
  intro l₁
  induction l₁ with
  | nil => intro l₂ a h; cases h
  | cons x l ih =>
    intro l₂ a h hl
    cases l₂ with
    | nil => simp at hl
    | cons y l₂ =>
      rcases List.mem_cons.mp h with rfl | hm
      · exact ⟨y, List.mem_cons_self _ _⟩
      · obtain ⟨b, hb⟩ := ih hm (by simpa using hl)
        exact ⟨b, List.mem_cons_of_mem _ hb⟩

theorem mem_zip_left {α β : Type} :
    ∀ {l₁ : List α} {l₂ : List β} {p : α × β}, p ∈ l₁.zip l₂ → p.1 ∈ l₁ := by
  intro l₁
  induction l₁ with
  | nil => intro l₂ p h; cases h
  | cons x l ih =>
    intro l₂ p h
    cases l₂ with
    | nil => cases h
    | cons y l₂ =>
      rcases List.mem_cons.mp h with rfl | hm
      · exact List.mem_cons_self _ _
      · exact List.mem_cons_of_mem _ (ih hm)

/-- A track assigned some detection has a first matching detection. -/
theorem firstMatch_eq_some_of_mem (assigns : List (Option Nat))
    (cents : List (Int × Int)) (tid : Nat) (hlen : assigns.length ≤ cents.length)
    (h : some tid ∈ assigns) : ∃ c, firstMatch assigns cents tid = some c := by
  obtain ⟨b, hb⟩ := exists_zip_pair h hlen
  cases hfm : firstMatch assigns cents tid with
  | some c => exact ⟨c, rfl⟩
  | none =>
    exfalso
    unfold firstMatch at hfm
    have := (findSome?_none_iff _ _).mp hfm (some tid, b) hb
    simp at this

/-- A track assigned no detection has no matching detection. -/
theorem firstMatch_eq_none_of_not_mem (assigns : List (Option Nat))
    (cents : List (Int × Int)) (tid : Nat) (h : some tid ∉ assigns) :
    firstMatch assigns cents tid = none := by
  unfold firstMatch
  apply (findSome?_none_iff _ _).mpr
  intro p hp
  have hp1 : p.1 ∈ assigns := mem_zip_left hp
  by_cases he : p.1 = some tid
  · exact absurd (he ▸ hp1) h
  · simp [he]

/-- Lines 89–92: a matched track is refreshed — some centroid, counter 0. -/
theorem refreshTrack_matched (assigns : List (Option Nat))
    (cents : List (Int × Int)) (hlen : assigns.length ≤ cents.length)
    (tid : Nat) (tr : Track) (h : some tid ∈ assigns) :
    ∃ c, refreshTrack assigns cents (tid, tr) = (tid, Track.mk c 0) := by
  obtain ⟨c, hc⟩ := firstMatch_eq_some_of_mem assigns cents tid hlen h
  exact ⟨c, by simp [refreshTrack, hc]⟩

/-- Lines 93–94: an unmatched track is aged by exactly one. -/
theorem refreshTrack_unmatched (assigns : List (Option Nat))
    (cents : List (Int × Int)) (tid : Nat) (tr : Track) (h : some tid ∉ assigns) :
    refreshTrack assigns cents (tid, tr) =
      (tid, Track.mk tr.centroid (tr.disappeared + 1)) := by
  have hc := firstMatch_eq_none_of_not_mem assigns cents tid h
  simp [refreshTrack, ageTrack, hc]

/-- C6: in every `update` call, each pre-existing track that is still held
afterwards was mutated in exactly one of two ways: if it was matched to a
detection its `disappeared` was reset to 0; otherwise it kept its centroid
and its `disappeared` grew by exactly 1. -/
theorem track_mutated_once (t : PersonTracker) (dets : List Rect)
    (hwf : WF t) (tid : Nat) (tr : Track) (htr : (tid, tr) ∈ t.tracks) :
    ∀ tr', (tid, tr') ∈ (update t dets).2.tracks →
      (tid ∈ assignedIds t dets ∧ tr'.disappeared = 0) ∨
      (tid ∉ assignedIds t dets ∧ tr' = Track.mk tr.centroid (tr.disappeared + 1)) := by
  obtain ⟨tracks, n⟩ := t
  obtain ⟨hnd, hlt⟩ := hwf
  simp only at hnd hlt htr
  intro tr' htr'
  cases dets with
  | nil =>
    have hres : (update ⟨tracks, n⟩ []).2.tracks =
        (tracks.map ageTrack).filter keepTrack := rfl
    have hids0 : assignedIds ⟨tracks, n⟩ ([] : List Rect) = [] := by
      cases tracks <;> rfl
    rw [hres] at htr'
    have hm := (List.mem_filter.mp htr').1
    rcases List.mem_map.mp hm with ⟨⟨k, v⟩, hkv, hage⟩
    have h1 : tid = k := (congrArg Prod.fst hage).symm
    subst h1
    have hv : v = tr := key_unique hnd hkv htr
    subst hv
    refine Or.inr ⟨?_, (congrArg Prod.snd hage).symm⟩
    rw [hids0]
    exact List.not_mem_nil _
  | cons d ds =>
    cases tracks with
    | nil => cases htr
    | cons p ps =>
      have hres : (update ⟨p :: ps, n⟩ (d :: ds)).2.tracks =
          (updateExisting (assignPass (p :: ps) ((d :: ds).map rectCentroid) [])
              ((d :: ds).map rectCentroid) (p :: ps) ++
            mkNew n (unassignedCents
              (assignPass (p :: ps) ((d :: ds).map rectCentroid) [])
              ((d :: ds).map rectCentroid))).filter keepTrack := rfl
      have hids : assignedIds ⟨p :: ps, n⟩ (d :: ds) =
          (assignPass (p :: ps) ((d :: ds).map rectCentroid) []).filterMap id := rfl
      rw [hres] at htr'
      rw [hids]
      have hm := (List.mem_filter.mp htr').1
      rcases List.mem_append.mp hm with hm1 | hm2
      · rcases List.mem_map.mp hm1 with ⟨⟨k, v⟩, hkv, hrf⟩
        have h1 : tid = k := by
          have := congrArg Prod.fst hrf
          rw [refreshTrack_fst] at this
          exact this.symm
        subst h1
        have hv : v = tr := key_unique hnd hkv htr
        subst hv
        by_cases hA : some tid ∈ assignPass (p :: ps) ((d :: ds).map rectCentroid) []
        · left
          refine ⟨mem_filterMap_id.mpr hA, ?_⟩
          obtain ⟨c, hc⟩ := refreshTrack_matched
            (assignPass (p :: ps) ((d :: ds).map rectCentroid) [])
            ((d :: ds).map rectCentroid)
            (le_of_eq (assignPass_length _ _ _)) tid v hA
          rw [hc] at hrf
          have h2 : tr' = Track.mk c 0 := (congrArg Prod.snd hrf).symm
          rw [h2]
        · right
          refine ⟨fun hx => hA (mem_filterMap_id.mp hx), ?_⟩
          have hrf' := refreshTrack_unmatched
            (assignPass (p :: ps) ((d :: ds).map rectCentroid) [])
            ((d :: ds).map rectCentroid) tid v hA
          rw [hrf'] at hrf
          exact (congrArg Prod.snd hrf).symm
      · exfalso
        have hk : tid ∈ (mkNew n (unassignedCents
            (assignPass (p :: ps) ((d :: ds).map rectCentroid) [])
            ((d :: ds).map rectCentroid))).map Prod.fst :=
          mem_keys.mpr ⟨tr', hm2⟩
        rw [mkNew_keys] at hk
        have h2 := (List.mem_range'_1.mp hk).1
        have h3 := hlt tid (mem_keys.mpr ⟨tr, htr⟩)
        omega

/-- C6, witness: the single track is matched and reset to `disappeared = 0`. -/
theorem track_mutated_once_app :
    ((1 : Nat) ∈ assignedIds ⟨[(1, Track.mk (0, 0) 0)], 2⟩ [⟨0, 0, 6, 8⟩] ∧
      (Track.mk ((3 : Int), (4 : Int)) 0).disappeared = 0) ∨
    ((1 : Nat) ∉ assignedIds ⟨[(1, Track.mk (0, 0) 0)], 2⟩ [⟨0, 0, 6, 8⟩] ∧
      Track.mk ((3 : Int), (4 : Int)) 0 = Track.mk (0, 0) (0 + 1)) := by
  have h := track_mutated_once ⟨[(1, Track.mk (0, 0) 0)], 2⟩ [⟨0, 0, 6, 8⟩]
    (by constructor <;> decide) 1 (Track.mk (0, 0) 0) (by decide)
  exact h (Track.mk (3, 4) 0) (by decide)

/-! ### Key-list structure of the new state -/

theorem keys_map_age (l : List (Nat × Track)) :
    (l.map ageTrack).map Prod.fst = l.map Prod.fst := by
  rw [List.map_map]
  exact List.map_congr_left fun p _ => rfl

theorem keys_filter_sublist (q : Nat × Track → Bool) (l : List (Nat × Track)) :
    ((l.filter q).map Prod.fst).Sublist (l.map Prod.fst) :=
  (List.filter_sublist l).map Prod.fst

/-- Newly created tracks all survive the removal step of the same call. -/
theorem mkNew_filter_keep (n : Nat) (cs : List (Int × Int)) :
    (mkNew n cs).filter keepTrack = mkNew n cs := by
  apply List.filter_eq_self.mpr
  intro p hp
  have h0 := mkNew_disappeared n cs p hp
  simp [keepTrack, max_disappeared, h0]

/-- A tracker built from a key-distinct, counter-bounded map is
well-formed. -/
theorem WF_mk (l : List (Nat × Track)) (m : Nat) (h1 : (l.map Prod.fst).Nodup)
    (h2 : ∀ tid ∈ l.map Prod.fst, tid < m) : WF ⟨l, m⟩ :=
  ⟨h1, h2⟩

/-- C5: a fresh tracker starts its counter at 1, `update` preserves
well-formedness (distinct keys, all below the counter), never decreases
the counter, gives every id that is new in this call a value at least the
old counter (so ids of previously removed tracks — all below it — are
never reused), and the ids created by this call are exactly the
consecutive block from the old counter, in increasing order. -/
theorem ids_strictly_increasing (t : PersonTracker) (dets : List Rect)
    (hwf : WF t) :
    init.next_id = 1 ∧
    WF (update t dets).2 ∧
    t.next_id ≤ (update t dets).2.next_id ∧
    (∀ tid ∈ (update t dets).2.tracks.map Prod.fst,
      tid ∉ t.tracks.map Prod.fst → t.next_id ≤ tid) ∧
    ((update t dets).2.tracks.map Prod.fst).filter
        (fun tid => decide (t.next_id ≤ tid)) =
      List.range' t.next_id ((update t dets).2.next_id - t.next_id) := by
  obtain ⟨tracks, n⟩ := t
  obtain ⟨hnd, hlt⟩ := hwf
  simp only at hnd hlt
  cases dets with
  | nil =>
    have e1 : (update ⟨tracks, n⟩ ([] : List Rect)).2.tracks =
        (tracks.map ageTrack).filter keepTrack := rfl
    have e2 : (update ⟨tracks, n⟩ ([] : List Rect)).2.next_id = n := rfl
    have hsub : (((tracks.map ageTrack).filter keepTrack).map Prod.fst).Sublist
        (tracks.map Prod.fst) := by
      rw [← keys_map_age tracks]
      exact keys_filter_sublist _ _
    refine ⟨rfl, ?_, ?_, ?_, ?_⟩
    · exact WF_mk _ _ (hsub.nodup hnd) (fun tid htid => hlt tid (hsub.subset htid))
    · rw [e2]
    · intro tid htid hni
      rw [e1] at htid
      exact absurd (hsub.subset htid) hni
    · rw [e1, e2, Nat.sub_self, List.range'_zero]
      apply List.filter_eq_nil_iff.mpr
      intro tid htid
      have := hlt tid (hsub.subset htid)
      simp only [decide_eq_true_eq]
      omega
  | cons d ds =>
    cases tracks with
    | nil =>
      have e1 : (update ⟨([] : List (Nat × Track)), n⟩ (d :: ds)).2.tracks =
          mkNew n ((d :: ds).map rectCentroid) := rfl
      have e2 : (update ⟨([] : List (Nat × Track)), n⟩ (d :: ds)).2.next_id =
          n + ((d :: ds).map rectCentroid).length := rfl
      refine ⟨rfl, ?_, ?_, ?_, ?_⟩
      · refine WF_mk _ _ ?_ ?_ <;> rw [mkNew_keys]
        · exact List.nodup_range' _ _
        · intro tid htid
          have := (List.mem_range'_1.mp htid).2
          omega
      · rw [e2]
        exact Nat.le_add_right _ _
      · intro tid htid _
        rw [e1, mkNew_keys] at htid
        exact (List.mem_range'_1.mp htid).1
      · rw [e1, e2, mkNew_keys, Nat.add_sub_cancel_left]
        apply List.filter_eq_self.mpr
        intro tid htid
        have := (List.mem_range'_1.mp htid).1
        simp only [decide_eq_true_eq]
        omega
    | cons p ps =>
      have e1 : (update ⟨p :: ps, n⟩ (d :: ds)).2.tracks =
          (updateExisting (assignPass (p :: ps) ((d :: ds).map rectCentroid) [])
              ((d :: ds).map rectCentroid) (p :: ps)).filter keepTrack ++
            mkNew n (unassignedCents
              (assignPass (p :: ps) ((d :: ds).map rectCentroid) [])
              ((d :: ds).map rectCentroid)) := by
        have : (update ⟨p :: ps, n⟩ (d :: ds)).2.tracks =
            (updateExisting (assignPass (p :: ps) ((d :: ds).map rectCentroid) [])
                ((d :: ds).map rectCentroid) (p :: ps) ++
              mkNew n (unassignedCents
                (assignPass (p :: ps) ((d :: ds).map rectCentroid) [])
                ((d :: ds).map rectCentroid))).filter keepTrack := rfl
        rw [this, List.filter_append, mkNew_filter_keep]
      have e2 : (update ⟨p :: ps, n⟩ (d :: ds)).2.next_id =
          n + (unassignedCents
            (assignPass (p :: ps) ((d :: ds).map rectCentroid) [])
            ((d :: ds).map rectCentroid)).length := rfl
      have hsub1 : (((updateExisting
          (assignPass (p :: ps) ((d :: ds).map rectCentroid) [])
          ((d :: ds).map rectCentroid) (p :: ps)).filter keepTrack).map
            Prod.fst).Sublist ((p :: ps).map Prod.fst) := by
        rw [← updateExisting_keys (assignPass (p :: ps)
          ((d :: ds).map rectCentroid) []) ((d :: ds).map rectCentroid) (p :: ps)]
        exact keys_filter_sublist _ _
      refine ⟨rfl, ?_, ?_, ?_, ?_⟩
      · rw [show (update ⟨p :: ps, n⟩ (d :: ds)).2 =
            (⟨(update ⟨p :: ps, n⟩ (d :: ds)).2.tracks,
              (update ⟨p :: ps, n⟩ (d :: ds)).2.next_id⟩ : PersonTracker) from rfl,
          e1, e2]
        refine WF_mk _ _ ?_ ?_ <;> rw [List.map_append, mkNew_keys]
        · refine List.Nodup.append (hsub1.nodup hnd) (List.nodup_range' _ _) ?_
          intro a ha hb
          have h1 := hlt a (hsub1.subset ha)
          have h2 := (List.mem_range'_1.mp hb).1
          omega
        · intro tid htid
          rcases List.mem_append.mp htid with h1 | h2
          · have := hlt tid (hsub1.subset h1)
            omega
          · have := (List.mem_range'_1.mp h2).2
            omega
      · rw [e2]
        exact Nat.le_add_right _ _
      · intro tid htid hni
        rw [e1, List.map_append, mkNew_keys] at htid
        rcases List.mem_append.mp htid with h1 | h2
        · exact absurd (hsub1.subset h1) hni
        · exact (List.mem_range'_1.mp h2).1
      · rw [e1, e2, List.map_append, mkNew_keys, Nat.add_sub_cancel_left,
          List.filter_append]
        have hfl : (((updateExisting
            (assignPass (p :: ps) ((d :: ds).map rectCentroid) [])
            ((d :: ds).map rectCentroid) (p :: ps)).filter keepTrack).map
              Prod.fst).filter (fun tid => decide (n ≤ tid)) = [] := by
          apply List.filter_eq_nil_iff.mpr
          intro tid htid
          have := hlt tid (hsub1.subset htid)
          simp only [decide_eq_true_eq]
          omega
        have hfr : (List.range' n (unassignedCents
            (assignPass (p :: ps) ((d :: ds).map rectCentroid) [])
            ((d :: ds).map rectCentroid)).length).filter
              (fun tid => decide (n ≤ tid)) =
            List.range' n (unassignedCents
              (assignPass (p :: ps) ((d :: ds).map rectCentroid) [])
              ((d :: ds).map rectCentroid)).length := by
          apply List.filter_eq_self.mpr
          intro tid htid
          have := (List.mem_range'_1.mp htid).1
          simp only [decide_eq_true_eq]
          omega
        rw [hfl, hfr, List.nil_append]

/-- C5, witness: an unmatched far-away detection creates track 2; the
updated state is well-formed and its new-id block is exactly `[2]`. -/
theorem ids_strictly_increasing_app :
    WF (update ⟨[(1, Track.mk (0, 0) 0)], 2⟩ [⟨200, 200, 210, 210⟩]).2 ∧
    ((update ⟨[(1, Track.mk (0, 0) 0)], 2⟩
        [⟨200, 200, 210, 210⟩]).2.tracks.map Prod.fst).filter
      (fun tid => decide (2 ≤ tid)) =
      List.range' 2 ((update ⟨[(1, Track.mk (0, 0) 0)], 2⟩
        [⟨200, 200, 210, 210⟩]).2.next_id - 2) := by
  have h := ids_strictly_increasing ⟨[(1, Track.mk (0, 0) 0)], 2⟩
    [⟨200, 200, 210, 210⟩] (by constructor <;> decide)
  exact ⟨h.2.1, h.2.2.2.2⟩

/-! ### Counting the detections -/

/-- Each detection is either assigned (a `some` in the pass result) or
contributes one unassigned centroid — the two groups partition the frame. -/
theorem assigned_unassigned_partition :
    ∀ (assigns : List (Option Nat)) (cents : List (Int × Int)),
      assigns.length = cents.length →
      (assigns.filterMap id).length + (unassignedCents assigns cents).length =
        assigns.length := by
  intro assigns
  induction assigns with
  | nil => intro cents _; simp [unassignedCents]
  | cons a A ih =>
    intro cents h
    cases cents with
    | nil => cases h
    | cons c cs =>
      have h' : A.length = cs.length := by simpa using h
      cases a with
      | some tid =>
        have e1 : unassignedCents (some tid :: A) (c :: cs) =
            unassignedCents A cs := by
          simp [unassignedCents]
        have e2 : ((some tid :: A).filterMap id).length =
            (A.filterMap id).length + 1 := by
          simp
        rw [e1, e2]
        have := ih cs h'
        simp only [List.length_cons]
        omega
      | none =>
        have e1 : unassignedCents (none :: A) (c :: cs) =
            c :: unassignedCents A cs := by
          simp [unassignedCents]
        have e2 : ((none :: A).filterMap id).length =
            (A.filterMap id).length := by
          simp
        rw [e1, e2]
        have := ih cs h'
        simp only [List.length_cons]
        omega

/-- C10: on a non-empty detection frame, every assigned id is a
pre-existing track held with `disappeared = 0` afterwards, every id in the
new consecutive block is held with `disappeared = 0` afterwards (a track
created in this call is never removed by it), the assigned ids and the new
block together account for exactly the detections, and consequently the
returned id list is at least as long as the detection list. -/
theorem detections_accounted (t : PersonTracker) (dets : List Rect)
    (hwf : WF t) (hne : dets ≠ []) :
    dets.length ≤ (update t dets).1.length ∧
    (∀ tid ∈ assignedIds t dets,
      tid ∈ t.tracks.map Prod.fst ∧
      ∃ tr', (tid, tr') ∈ (update t dets).2.tracks ∧ tr'.disappeared = 0) ∧
    (∀ tid, t.next_id ≤ tid → tid < (update t dets).2.next_id →
      ∃ tr', (tid, tr') ∈ (update t dets).2.tracks ∧ tr'.disappeared = 0) ∧
    (assignedIds t dets).length + ((update t dets).2.next_id - t.next_id) =
      dets.length := by
  obtain ⟨tracks, n⟩ := t
  obtain ⟨hnd, hlt⟩ := hwf
  simp only at hnd hlt
  cases dets with
  | nil => cases hne rfl
  | cons d ds =>
    cases tracks with
    | nil =>
      have hids : assignedIds ⟨([] : List (Nat × Track)), n⟩ (d :: ds) = [] := rfl
      have e1 : (update ⟨([] : List (Nat × Track)), n⟩ (d :: ds)).2.tracks =
          mkNew n ((d :: ds).map rectCentroid) := rfl
      have e2 : (update ⟨([] : List (Nat × Track)), n⟩ (d :: ds)).2.next_id =
          n + ((d :: ds).map rectCentroid).length := rfl
      have eret : (update ⟨([] : List (Nat × Track)), n⟩ (d :: ds)).1 =
          (mkNew n ((d :: ds).map rectCentroid)).map Prod.fst := rfl
      refine ⟨?_, ?_, ?_, ?_⟩
      · rw [eret, List.length_map, mkNew_length, List.length_map]
      · intro tid htid
        rw [hids] at htid
        cases htid
      · intro tid h1 h2
        rw [e2] at h2
        rw [e1]
        have hk : tid ∈ (mkNew n ((d :: ds).map rectCentroid)).map Prod.fst := by
          rw [mkNew_keys]
          exact List.mem_range'_1.mpr ⟨h1, h2⟩
        rcases mem_keys.mp hk with ⟨tr', htr'⟩
        exact ⟨tr', htr', mkNew_disappeared _ _ _ htr'⟩
      · rw [hids, e2, Nat.add_sub_cancel_left, List.length_map]
        simp
    | cons p ps =>
      set cents := (d :: ds).map rectCentroid with hcents
      set A := assignPass (p :: ps) cents [] with hAdef
      set U := unassignedCents A cents with hUdef
      set T1 := updateExisting A cents (p :: ps) with hT1def
      set M := mkNew n U with hMdef
      have hAlen : A.length = cents.length := assignPass_length _ _ _
      have hclen : cents.length = (d :: ds).length := List.length_map _ _
      have hids : assignedIds ⟨p :: ps, n⟩ (d :: ds) = A.filterMap id := rfl
      have e1 : (update ⟨p :: ps, n⟩ (d :: ds)).2.tracks =
          T1.filter keepTrack ++ M := by
        have e0 : (update ⟨p :: ps, n⟩ (d :: ds)).2.tracks =
            (T1 ++ M).filter keepTrack := rfl
        rw [e0, List.filter_append, hMdef, mkNew_filter_keep]
      have e2 : (update ⟨p :: ps, n⟩ (d :: ds)).2.next_id = n + U.length := rfl
      have eret : (update ⟨p :: ps, n⟩ (d :: ds)).1 =
          ((T1 ++ M).filter keepTrack).map Prod.fst := rfl
      have hMkeep : List.countP keepTrack M = U.length := by
        have hall : List.countP keepTrack M = M.length :=
          List.countP_eq_length.mpr fun a ha => by
            have h0 := mkNew_disappeared n U a ha
            simp [keepTrack, max_disappeared, h0]
        rw [hall, hMdef, mkNew_length]
      have s1 : List.countP (fun q => decide (some q.1 ∈ A)) T1 ≤
          List.countP keepTrack T1 := by
        apply List.countP_mono_left
        intro q hq hsome
        have hsome' : some q.1 ∈ A := of_decide_eq_true hsome
        rw [hT1def] at hq
        rcases List.mem_map.mp hq with ⟨⟨k, v⟩, hkv, hrf⟩
        have hk : q.1 = k := by
          rw [← hrf, refreshTrack_fst]
        rw [hk] at hsome'
        obtain ⟨c, hc⟩ := refreshTrack_matched A cents (le_of_eq hAlen) k v hsome'
        rw [hc] at hrf
        rw [← hrf]
        simp [keepTrack, max_disappeared]
      have s2 : List.countP (fun q => decide (some q.1 ∈ A)) T1 =
          List.countP (fun q => decide (some q.1 ∈ A)) (p :: ps) := by
        rw [hT1def]
        unfold updateExisting
        rw [List.countP_map]
        apply List.countP_congr
        intro q _
        simp [Function.comp, refreshTrack_fst]
      have s3 : List.countP (fun q => decide (some q.1 ∈ A)) (p :: ps) =
          List.countP (fun k => decide (some k ∈ A)) ((p :: ps).map Prod.fst) := by
        rw [List.countP_map]
        rfl
      have s4 : (A.filterMap id).length ≤
          List.countP (fun k => decide (some k ∈ A)) ((p :: ps).map Prod.fst) := by
        rw [List.countP_eq_length_filter]
        refine List.Subperm.length_le
          (List.subperm_of_subset (assignPass_values_nodup _ _ _) ?_)
        intro v hv
        have hsome := mem_filterMap_id.mp hv
        rcases (assignPass_mem_spec (p :: ps) cents [] v hsome).1 with ⟨tr, htr⟩
        exact List.mem_filter.mpr ⟨mem_keys.mpr ⟨tr, htr⟩, decide_eq_true hsome⟩
      have hpart := assigned_unassigned_partition A cents hAlen
      rw [← hUdef] at hpart
      refine ⟨?_, ?_, ?_, ?_⟩
      · rw [eret, List.length_map, ← List.countP_eq_length_filter,
          List.countP_append, hMkeep]
        have := le_trans s4 (le_trans (le_of_eq (s3.symm.trans s2.symm)) s1)
        omega
      · intro tid htid
        rw [hids] at htid
        have hsome : some tid ∈ A := mem_filterMap_id.mp htid
        rcases (assignPass_mem_spec (p :: ps) cents [] tid hsome).1 with ⟨tr, htr⟩
        refine ⟨mem_keys.mpr ⟨tr, htr⟩, ?_⟩
        obtain ⟨c, hc⟩ := refreshTrack_matched A cents (le_of_eq hAlen) tid tr hsome
        refine ⟨Track.mk c 0, ?_, rfl⟩
        rw [e1]
        apply List.mem_append_left
        refine List.mem_filter.mpr ⟨?_, by simp [keepTrack, max_disappeared]⟩
        rw [hT1def]
        exact List.mem_map.mpr ⟨(tid, tr), htr, hc⟩
      · intro tid h1 h2
        rw [e2] at h2
        have hk : tid ∈ M.map Prod.fst := by
          rw [hMdef, mkNew_keys]
          exact List.mem_range'_1.mpr ⟨h1, h2⟩
        rcases mem_keys.mp hk with ⟨tr', htr'⟩
        refine ⟨tr', ?_, ?_⟩
        · rw [e1]
          exact List.mem_append_right _ htr'
        · rw [hMdef] at htr'
          exact mkNew_disappeared _ _ _ htr'
      · rw [hids, e2, Nat.add_sub_cancel_left]
        rw [hAlen, hclen] at hpart
        exact hpart

/-- C10, witness: one matched and one unmatched detection on a one-track
state, both hypotheses discharged concretely. -/
theorem detections_accounted_app :
    ([(⟨0, 0, 6, 8⟩ : Rect), ⟨500, 500, 510, 510⟩] : List Rect).length ≤
      (update ⟨[(1, Track.mk (0, 0) 0)], 2⟩
        [⟨0, 0, 6, 8⟩, ⟨500, 500, 510, 510⟩]).1.length ∧
    (assignedIds ⟨[(1, Track.mk (0, 0) 0)], 2⟩
        [⟨0, 0, 6, 8⟩, ⟨500, 500, 510, 510⟩]).length +
      ((update ⟨[(1, Track.mk (0, 0) 0)], 2⟩
        [⟨0, 0, 6, 8⟩, ⟨500, 500, 510, 510⟩]).2.next_id - 2) = 2 := by
  have h := detections_accounted ⟨[(1, Track.mk (0, 0) 0)], 2⟩
    [⟨0, 0, 6, 8⟩, ⟨500, 500, 510, 510⟩] (by constructor <;> decide) (by decide)
  exact ⟨h.1, h.2.2.2⟩

/-- C9, witness: two tracks tied at squared distance 25 from the detection;
the first one in map order is chosen. -/
theorem update_deterministic_app :
    update init [] = update init [] ∧
    findBest (0, 0) [] [(1, ⟨(3, 4), 0⟩), (2, ⟨(4, 3), 0⟩)] none =
      some (1, distSq (0, 0) (3, 4)) := by
  have h := update_deterministic init init [] [] rfl rfl
  exact ⟨h.1, h.2 (0, 0) 1 2 ⟨(3, 4), 0⟩ ⟨(4, 3), 0⟩ [] (by decide) (by decide)
    (fun p hp => absurd hp (List.not_mem_nil p))⟩

end PersonTracker
